import Mathlib

/-!
Verification of the mcp-spark-documentation indexing and search core.

This file gives a shallow embedding, in Lean 4, of the store
(`src/mcp_spark_documentation/database.py`), the parser
(`src/mcp_spark_documentation/parser.py`) and the indexer
(`src/mcp_spark_documentation/indexer.py`), together with theorems that
settle the specification claims about them.

Modelling conventions:
* SQLite tables are lists of rows; the `documents` table rows carry the
  integer primary key `id` (AUTOINCREMENT is modelled by `nextId`, which
  is never reused, matching `sqlite_sequence` semantics).
* The FTS5 virtual table `documents_fts` is a list of entries
  `(rowid, title, description, content)`.  The three triggers
  `documents_ai` / `documents_ad` / `documents_au` from
  `_initialise_schema` are inlined into the operations they fire on:
  insert appends a projection of the new row, delete removes the entries
  for the deleted rowid, update removes the old entries and appends the
  new projection (FTS5 external-content delete-then-insert).
* `CURRENT_TIMESTAMP` is modelled by an explicit `now : Nat` argument.
* The FTS5 builtins `MATCH`, `bm25` and `snippet` are external to the
  repository (they live inside SQLite); `search` is therefore
  parameterised by functions `matchQ`, `score` and `snip` over FTS
  entries.  The SQL-level structure of the query (join on rowid = id,
  truthiness test on the section argument, exact section equality,
  `ORDER BY score` ascending, `LIMIT`, and `abs` applied to the raw
  bm25 value) is taken from the source.  `ORDER BY` is modelled as a
  stable sort (`List.insertionSort`), matching SQLite's deterministic
  row ordering for a fixed database file.
-/

/-- `Document` from `models.py`: path, title, description, section,
content, url.  `description` is `str | None`, hence `Option`. -/
structure Document where
  path : String
  title : String
  description : Option String
  «section» : String
  content : String
  url : String
deriving DecidableEq

/-- A row of the `documents` table from `_initialise_schema`. -/
structure Row where
  id : Nat
  path : String
  title : String
  description : Option String
  «section» : String
  url : String
  content : String
  createdAt : Nat
  updatedAt : Nat
deriving DecidableEq

/-- A row of the `documents_fts` FTS5 table: the indexed columns are
`title`, `description`, `content`, keyed by `rowid` (`content_rowid='id'`). -/
structure FtsEntry where
  rowid : Nat
  title : String
  description : Option String
  content : String
deriving DecidableEq

/-- The projection of a `documents` row into its `documents_fts` entry,
as written by the `documents_ai` / `documents_au` triggers. -/
def projRow (r : Row) : FtsEntry :=
  { rowid := r.id, title := r.title, description := r.description, content := r.content }

/-- `SearchResult` from `models.py`. The score is rational: SQLite's
bm25 values are modelled in `ℚ`. -/
structure SearchResult where
  path : String
  title : String
  url : String
  snippet : String
  score : ℚ
  «section» : String
deriving DecidableEq

/-- The persistent state managed by `DocumentDatabase`: the `documents`
table, the `documents_fts` index, and the next AUTOINCREMENT id. -/
structure DocumentDatabase where
  docs : List Row
  fts : List FtsEntry
  nextId : Nat
deriving DecidableEq

/-- A freshly initialised database (`_initialise_schema` on a new file):
both tables empty, AUTOINCREMENT starts at 1. -/
def initDB : DocumentDatabase := { docs := [], fts := [], nextId := 1 }

/-- The row produced by the `DO UPDATE` arm of `upsert_document`: all
mutable fields are replaced from `excluded`, `updated_at` is refreshed,
while `id`, `path` and `created_at` are untouched. -/
def updatedRow (old : Row) (doc : Document) (now : Nat) : Row :=
  { old with title := doc.title, description := doc.description,
             «section» := doc.«section», url := doc.url, content := doc.content,
             updatedAt := now }

/-- The row produced by the plain-`INSERT` arm of `upsert_document`:
a fresh AUTOINCREMENT id, both timestamps set to `CURRENT_TIMESTAMP`. -/
def freshRow (idv : Nat) (doc : Document) (now : Nat) : Row :=
  { id := idv, path := doc.path, title := doc.title,
    description := doc.description, «section» := doc.«section», url := doc.url,
    content := doc.content, createdAt := now, updatedAt := now }

/-- `upsert_document`:
`INSERT INTO documents (path, title, description, section, url, content)
VALUES (...) ON CONFLICT(path) DO UPDATE SET title = excluded.title, ...,
updated_at = CURRENT_TIMESTAMP`.
On conflict the `documents_au` trigger fires (delete old FTS entries for
the rowid, insert the new projection); otherwise `documents_ai` fires
(insert the projection of the new row). -/
def DocumentDatabase.upsert_document (db : DocumentDatabase) (doc : Document) (now : Nat) :
    DocumentDatabase :=
  match db.docs.find? (fun r => r.path = doc.path) with
  | some old =>
    { docs := db.docs.map (fun r => if r.path = doc.path then updatedRow old doc now else r),
      fts := (db.fts.filter (fun e => e.rowid ≠ old.id)) ++ [projRow (updatedRow old doc now)],
      nextId := db.nextId }
  | none =>
    { docs := db.docs ++ [freshRow db.nextId doc now],
      fts := db.fts ++ [projRow (freshRow db.nextId doc now)],
      nextId := db.nextId + 1 }

/-- `get_document`: `SELECT * FROM documents WHERE path = ?`, building a
`Document` from the row (timestamps are not copied into the model). -/
def DocumentDatabase.get_document (db : DocumentDatabase) (p : String) : Option Document :=
  (db.docs.find? (fun r => r.path = p)).map (fun r =>
    { path := r.path, title := r.title, description := r.description,
      «section» := r.«section», content := r.content, url := r.url })

/-- `clear`: `DELETE FROM documents`.  The `documents_ad` trigger fires
once per deleted row, removing its FTS entries by rowid. -/
def DocumentDatabase.clear (db : DocumentDatabase) : DocumentDatabase :=
  { docs := [],
    fts := db.fts.filter (fun e => db.docs.all (fun r => r.id ≠ e.rowid)),
    nextId := db.nextId }

/-- `get_document_count`: `SELECT COUNT(*) FROM documents`. -/
def DocumentDatabase.get_document_count (db : DocumentDatabase) : Nat :=
  db.docs.length

/-- The mutating store operations named by the consistency claim. -/
inductive Op where
  | upsert (doc : Document) (now : Nat)
  | clearAll
deriving DecidableEq

/-- Apply one store operation. -/
def applyOp (db : DocumentDatabase) : Op → DocumentDatabase
  | Op.upsert doc now => db.upsert_document doc now
  | Op.clearAll => db.clear

/-- Run a sequence of store operations from a given state. -/
def runOps (db : DocumentDatabase) (ops : List Op) : DocumentDatabase :=
  ops.foldl applyOp db

/-- Unfolding equation for the conflict arm of `upsert_document`. -/
theorem upsert_document_found (db : DocumentDatabase) (doc : Document) (now : Nat)
    (old : Row) (hf : db.docs.find? (fun r => r.path = doc.path) = some old) :
    db.upsert_document doc now =
      { docs := db.docs.map (fun r => if r.path = doc.path then updatedRow old doc now else r),
        fts := (db.fts.filter (fun e => e.rowid ≠ old.id)) ++ [projRow (updatedRow old doc now)],
        nextId := db.nextId } := by
  unfold DocumentDatabase.upsert_document
  rw [hf]

/-- Unfolding equation for the plain-insert arm of `upsert_document`. -/
theorem upsert_document_new (db : DocumentDatabase) (doc : Document) (now : Nat)
    (hf : db.docs.find? (fun r => r.path = doc.path) = none) :
    db.upsert_document doc now =
      { docs := db.docs ++ [freshRow db.nextId doc now],
        fts := db.fts ++ [projRow (freshRow db.nextId doc now)],
        nextId := db.nextId + 1 } := by
  unfold DocumentDatabase.upsert_document
  rw [hf]

/-- `find?` on a path-indifferent map: if `f` preserves the predicate
"has path `p`", then finding by path commutes with mapping `f`. -/
theorem find?_path_map (l : List Row) (p : String) (f : Row → Row)
    (hp : ∀ r : Row, (f r).path = p ↔ r.path = p) :
    (l.map f).find? (fun r => r.path = p) = (l.find? (fun r => r.path = p)).map f := by
  rw [List.find?_map]
  have : ((fun r : Row => decide (r.path = p)) ∘ f) = (fun r : Row => decide (r.path = p)) :=
    funext fun r => decide_eq_decide.mpr (hp r)
  rw [this]

/-- C2: round trip. After `upsert_document d`, `get_document d.path`
returns exactly `d` (all six `Document` fields; the model's `Document`
carries no timestamps, matching `get_document` in the source). -/
theorem upsert_get_roundtrip (db : DocumentDatabase) (d : Document) (now : Nat) :
    (db.upsert_document d now).get_document d.path = some d := by
  cases hf : db.docs.find? (fun r => r.path = d.path) with
  | none =>
    rw [upsert_document_new db d now hf]
    simp only [DocumentDatabase.get_document, List.find?_append, hf, Option.none_or]
    simp [List.find?, freshRow]
  | some old =>
    have hpath : old.path = d.path := by
      have := List.find?_some hf
      simpa using this
    rw [upsert_document_found db d now old hf]
    have hcomm := find?_path_map db.docs d.path
      (fun r => if r.path = d.path then updatedRow old d now else r)
      (by
        intro r
        by_cases h : r.path = d.path
        · simp [h, updatedRow, hpath]
        · simp [h])
    simp only [DocumentDatabase.get_document, hcomm, hf, Option.map_some]
    simp [updatedRow, hpath]

/-- Well-formedness of the database state: row ids are pairwise
distinct, paths are pairwise distinct (the `UNIQUE` constraint), every
id is below the AUTOINCREMENT counter, and the FTS table is, up to
order, exactly the projection of the `documents` table. -/
def WF (db : DocumentDatabase) : Prop :=
  db.docs.Pairwise (fun a b => a.id ≠ b.id) ∧
  db.docs.Pairwise (fun a b => a.path ≠ b.path) ∧
  (∀ r ∈ db.docs, r.id < db.nextId) ∧
  db.fts.Perm (db.docs.map projRow)

theorem wf_initDB : WF initDB :=
  ⟨List.Pairwise.nil, List.Pairwise.nil, by simp [initDB], by simp [initDB]⟩

/-- In a list whose keys are pairwise distinct, two members with the
same key are the same element. -/
theorem key_unique {α κ : Type} (key : α → κ) {l : List α}
    (hpw : l.Pairwise (fun a b => key a ≠ key b)) :
    ∀ a ∈ l, ∀ b ∈ l, key a = key b → a = b := by
  intro a ha b hb hk
  by_contra hne
  have hsym : Symmetric (fun a b : α => key a ≠ key b) := by
    intro x y h h'
    exact h h'.symm
  exact (hpw.forall hsym ha hb hne) hk

/-- In a list whose keys are pairwise distinct, a member with key `k`
is counted exactly once by the key-`k` predicate. -/
theorem countP_key_one {α κ : Type} [DecidableEq κ] (key : α → κ) (k : κ) :
    ∀ {l : List α}, l.Pairwise (fun a b => key a ≠ key b) →
      ∀ r ∈ l, key r = k → l.countP (fun x => key x = k) = 1 := by
  intro l
  induction l with
  | nil => intro _ r hr; exact absurd hr (List.not_mem_nil r)
  | cons x xs ih =>
    intro hpw r hr hk
    rcases List.pairwise_cons.mp hpw with ⟨hx, hxs⟩
    rcases List.mem_cons.mp hr with h | h
    · subst h
      have hz : xs.countP (fun y => key y = k) = 0 := by
        rw [List.countP_eq_zero]
        intro y hy
        simp only [decide_eq_true_eq]
        intro hky
        exact hx y hy (hk.trans hky.symm)
      rw [List.countP_cons, hz]
      simp [hk]
    · have hxk : ¬ (key x = k) := fun hc => hx r h (hc.trans hk.symm)
      rw [List.countP_cons, ih hxs r h hk]
      simp [hxk]

/-- A member of an upserted table with the upserted path. -/
theorem upsert_mem_path (db : DocumentDatabase) (d : Document) (now : Nat) :
    ∃ r ∈ (db.upsert_document d now).docs, r.path = d.path := by
  cases hf : db.docs.find? (fun r => r.path = d.path) with
  | none =>
    refine ⟨freshRow db.nextId d now, ?_, rfl⟩
    rw [upsert_document_new db d now hf]
    simp
  | some old =>
    have hpath : old.path = d.path := by simpa using List.find?_some hf
    have hmem : old ∈ db.docs := List.mem_of_find?_eq_some hf
    refine ⟨updatedRow old d now, ?_, hpath⟩
    rw [upsert_document_found db d now old hf]
    exact List.mem_map.mpr ⟨old, hmem, by simp [hpath]⟩

/-- `upsert_document` preserves well-formedness. -/
theorem wf_upsert (db : DocumentDatabase) (d : Document) (now : Nat) (h : WF db) :
    WF (db.upsert_document d now) := by
  obtain ⟨hid, hpa, hlt, hperm⟩ := h
  cases hf : db.docs.find? (fun r => r.path = d.path) with
  | none =>
    rw [upsert_document_new db d now hf]
    have hnone : ∀ r ∈ db.docs, ¬ (r.path = d.path) := by
      intro r hr
      have := List.find?_eq_none.mp hf r hr
      simpa using this
    refine ⟨?_, ?_, ?_, ?_⟩
    · rw [List.pairwise_append]
      refine ⟨hid, List.pairwise_singleton _ _, ?_⟩
      intro a ha b hb
      rw [List.mem_singleton.mp hb]
      exact Nat.ne_of_lt (hlt a ha)
    · rw [List.pairwise_append]
      refine ⟨hpa, List.pairwise_singleton _ _, ?_⟩
      intro a ha b hb
      rw [List.mem_singleton.mp hb]
      exact hnone a ha
    · intro r hr
      rcases List.mem_append.mp hr with h1 | h1
      · exact Nat.lt_succ_of_lt (hlt r h1)
      · rw [List.mem_singleton.mp h1]
        exact Nat.lt_succ_self _
    · rw [List.map_append]
      exact hperm.append (List.Perm.refl _)
  | some old =>
    have hpath : old.path = d.path := by simpa using List.find?_some hf
    have hmem : old ∈ db.docs := List.mem_of_find?_eq_some hf
    rw [upsert_document_found db d now old hf]
    set f := fun r : Row => if r.path = d.path then updatedRow old d now else r with hfdef
    have hpres : ∀ r ∈ db.docs, (f r).id = r.id ∧ (f r).path = r.path := by
      intro r hr
      by_cases hc : r.path = d.path
      · have : r = old := key_unique Row.path hpa r hr old hmem (hc.trans hpath.symm)
        subst this
        simp [hfdef, hc, updatedRow]
      · simp [hfdef, hc]
    refine ⟨?_, ?_, ?_, ?_⟩
    · rw [List.pairwise_map]
      exact List.Pairwise.imp_of_mem
        (fun {a b} ha hb hne => by
          rw [(hpres a ha).1, (hpres b hb).1]; exact hne) hid
    · rw [List.pairwise_map]
      exact List.Pairwise.imp_of_mem
        (fun {a b} ha hb hne => by
          rw [(hpres a ha).2, (hpres b hb).2]; exact hne) hpa
    · intro r hr
      rcases List.mem_map.mp hr with ⟨a, ha, rfl⟩
      rw [(hpres a ha).1]
      exact hlt a ha
    · -- Decompose the table at the unique row holding the path.
      rcases (List.find?_eq_some.mp hf) with ⟨hpold, as, bs, hsplit, has⟩
      have hasp : ∀ a ∈ as, a.path ≠ d.path := by
        intro a ha
        have := has a ha
        simpa using this
      have hbsp : ∀ b ∈ bs, b.path ≠ d.path := by
        have := hsplit ▸ hpa
        rw [List.pairwise_append] at this
        rcases this with ⟨-, hcons, -⟩
        rcases List.pairwise_cons.mp hcons with ⟨holdbs, -⟩
        intro b hb hc
        exact holdbs b hb (hpath.trans hc.symm)
      have hasid : ∀ a ∈ as, a.id ≠ old.id := by
        have := hsplit ▸ hid
        rw [List.pairwise_append] at this
        rcases this with ⟨-, -, hcross⟩
        intro a ha
        exact hcross a ha old (List.mem_cons_self _ _)
      have hbsid : ∀ b ∈ bs, b.id ≠ old.id := by
        have := hsplit ▸ hid
        rw [List.pairwise_append] at this
        rcases this with ⟨-, hcons, -⟩
        rcases List.pairwise_cons.mp hcons with ⟨holdbs, -⟩
        intro b hb hc
        exact (holdbs b hb) hc.symm
      have hmapf : db.docs.map f = as ++ updatedRow old d now :: bs := by
        rw [hsplit, List.map_append, List.map_cons]
        have h1 : List.map f as = List.map id as :=
          List.map_congr_left (fun a ha => by simp [hfdef, hasp a ha])
        have h2 : List.map f bs = List.map id bs :=
          List.map_congr_left (fun b hb => by simp [hfdef, hbsp b hb])
        have h3 : f old = updatedRow old d now := by simp [hfdef, hpath]
        rw [h1, h2, h3]
        simp
      have h1 : (as.map projRow).filter (fun e => e.rowid ≠ old.id) = as.map projRow := by
        rw [List.filter_eq_self]
        intro e he
        rcases List.mem_map.mp he with ⟨a, ha, rfl⟩
        simpa [projRow] using hasid a ha
      have h2 : (bs.map projRow).filter (fun e => e.rowid ≠ old.id) = bs.map projRow := by
        rw [List.filter_eq_self]
        intro e he
        rcases List.mem_map.mp he with ⟨b, hb, rfl⟩
        simpa [projRow] using hbsid b hb
      have hfilter :
          (db.docs.map projRow).filter (fun e => e.rowid ≠ old.id)
            = as.map projRow ++ bs.map projRow := by
        rw [hsplit, List.map_append, List.map_cons, List.filter_append, List.filter_cons,
          h1, h2]
        simp [projRow]
      have step1 : ((db.fts.filter (fun e => e.rowid ≠ old.id))
            ++ [projRow (updatedRow old d now)]).Perm
          (((db.docs.map projRow).filter (fun e => e.rowid ≠ old.id))
            ++ [projRow (updatedRow old d now)]) :=
        (hperm.filter _).append (List.Perm.refl _)
      rw [hfilter] at step1
      have step2 : ((as.map projRow ++ bs.map projRow)
            ++ [projRow (updatedRow old d now)]).Perm
          (as.map projRow ++ (projRow (updatedRow old d now) :: bs.map projRow)) := by
        rw [List.append_assoc]
        exact (List.Perm.refl _).append (List.perm_append_singleton _ _)
      have hall := step1.trans step2
      have hrhs : (db.docs.map f).map projRow
          = as.map projRow ++ (projRow (updatedRow old d now) :: bs.map projRow) := by
        rw [hmapf, List.map_append, List.map_cons]
      exact hrhs ▸ hall

/-- `clear` preserves well-formedness. -/
theorem wf_clear (db : DocumentDatabase) (h : WF db) : WF db.clear := by
  obtain ⟨-, -, -, hperm⟩ := h
  refine ⟨List.Pairwise.nil, List.Pairwise.nil, by simp [DocumentDatabase.clear], ?_⟩
  simp only [DocumentDatabase.clear, List.map_nil, List.perm_nil, List.filter_eq_nil_iff]
  intro e he
  simp only [List.all_eq_true, decide_eq_true_eq, not_forall]
  rcases List.mem_map.mp (hperm.mem_iff.mp he) with ⟨r, hr, rfl⟩
  exact ⟨r, hr, by simp [projRow]⟩

/-- Every state reachable by store operations from a fresh database is
well-formed. -/
theorem wf_runOps (ops : List Op) : ∀ db : DocumentDatabase, WF db → WF (runOps db ops) := by
  induction ops with
  | nil => intro db h; exact h
  | cons op ops ih =>
    intro db h
    have h1 : WF (applyOp db op) := by
      cases op with
      | upsert doc now => exact wf_upsert db doc now h
      | clearAll => exact wf_clear db h
    exact ih (applyOp db op) h1

/-- Dual-structure consistency: the FTS table holds exactly one entry
per stored row, keyed by that row's id, whose indexed fields equal the
row's current fields, and no entry for anything else. -/
def indexConsistent (db : DocumentDatabase) : Prop :=
  (∀ r ∈ db.docs,
      db.fts.countP (fun e => e.rowid = r.id) = 1 ∧
      ∀ e ∈ db.fts, e.rowid = r.id →
        e.title = r.title ∧ e.description = r.description ∧ e.content = r.content) ∧
  (∀ e ∈ db.fts, ∃ r ∈ db.docs, r.id = e.rowid)

/-- Well-formedness implies the consistency property of the claim. -/
theorem wf_indexConsistent (db : DocumentDatabase) (h : WF db) : indexConsistent db := by
  obtain ⟨hid, -, -, hperm⟩ := h
  constructor
  · intro r hr
    constructor
    · rw [hperm.countP_eq, List.countP_map]
      have : ((fun e : FtsEntry => decide (e.rowid = r.id)) ∘ projRow)
          = (fun x : Row => decide (x.id = r.id)) := by
        funext x; simp [projRow]
      rw [this]
      exact countP_key_one Row.id r.id hid r hr rfl
    · intro e he hrow
      have : e ∈ db.docs.map projRow := hperm.mem_iff.mp he
      rcases List.mem_map.mp this with ⟨r', hr', rfl⟩
      have : r' = r := key_unique Row.id hid r' hr' r hr hrow
      subst this
      exact ⟨rfl, rfl, rfl⟩
  · intro e he
    have : e ∈ db.docs.map projRow := hperm.mem_iff.mp he
    rcases List.mem_map.mp this with ⟨r, hr, rfl⟩
    exact ⟨r, hr, rfl⟩

/-- C1: after any sequence of store operations (upserts and clears) on
a fresh database, the search index contains exactly one entry per
stored document, keyed by that document's row id, whose indexed
title/description/content equal the stored row's current fields — an
upsert of an existing path replaces the entry, an insert adds one, and
clear removes all of them. -/
theorem store_index_always_consistent (ops : List Op) :
    indexConsistent (runOps initDB ops) :=
  wf_indexConsistent _ (wf_runOps ops initDB wf_initDB)

/-- C3: upserting the same path twice leaves exactly one record for
that path, holding the second document's mutable fields; the count does
not increase on the second upsert; the second upsert sets `updated_at`
to the second timestamp and keeps `created_at` from the existing row. -/
theorem upsert_twice_single_record (db : DocumentDatabase) (d1 d2 : Document)
    (t1 t2 : Nat) (hWF : WF db) (hp : d1.path = d2.path) :
    ((db.upsert_document d1 t1).upsert_document d2 t2).get_document_count
        = (db.upsert_document d1 t1).get_document_count ∧
    ((db.upsert_document d1 t1).upsert_document d2 t2).docs.countP
        (fun r => r.path = d2.path) = 1 ∧
    ∀ r1 ∈ (db.upsert_document d1 t1).docs, r1.path = d2.path →
      ∃ r2 ∈ ((db.upsert_document d1 t1).upsert_document d2 t2).docs,
        r2.path = d2.path ∧ r2.title = d2.title ∧ r2.description = d2.description ∧
        r2.«section» = d2.«section» ∧ r2.url = d2.url ∧ r2.content = d2.content ∧
        r2.updatedAt = t2 ∧ r2.createdAt = r1.createdAt := by
  have hWF1 : WF (db.upsert_document d1 t1) := wf_upsert db d1 t1 hWF
  have hWF2 : WF ((db.upsert_document d1 t1).upsert_document d2 t2) :=
    wf_upsert _ d2 t2 hWF1
  rcases upsert_mem_path db d1 t1 with ⟨rw1, hrw1, hrw1p⟩
  have hsome : ((db.upsert_document d1 t1).docs.find?
      (fun r => r.path = d2.path)).isSome := by
    rw [List.find?_isSome]
    exact ⟨rw1, hrw1, by simpa using hrw1p.trans hp⟩
  rcases Option.isSome_iff_exists.mp hsome with ⟨old2, hf2⟩
  have hold2p : old2.path = d2.path := by simpa using List.find?_some hf2
  have hold2m : old2 ∈ (db.upsert_document d1 t1).docs := List.mem_of_find?_eq_some hf2
  have harm := upsert_document_found (db.upsert_document d1 t1) d2 t2 old2 hf2
  refine ⟨?_, ?_, ?_⟩
  · rw [harm]
    simp [DocumentDatabase.get_document_count]
  · rcases upsert_mem_path (db.upsert_document d1 t1) d2 t2 with ⟨rw2, hrw2, hrw2p⟩
    exact countP_key_one Row.path d2.path hWF2.2.1 rw2 hrw2 hrw2p
  · intro r1 hr1 hr1p
    have hr1old : r1 = old2 :=
      key_unique Row.path hWF1.2.1 r1 hr1 old2 hold2m (hr1p.trans hold2p.symm)
    refine ⟨updatedRow old2 d2 t2, ?_, hold2p, rfl, rfl, rfl, rfl, rfl, rfl, ?_⟩
    · rw [harm]
      exact List.mem_map.mpr ⟨old2, hold2m, by simp [hold2p]⟩
    · rw [hr1old]
      rfl

/-- Witness for C3 at a concrete input. -/
theorem upsert_twice_single_record_witness :
    WF initDB ∧
    ((initDB.upsert_document ⟨"a.md", "T1", none, "root", "c1", "u"⟩ 0).upsert_document
        ⟨"a.md", "T2", none, "root", "c2", "u"⟩ 1).docs.countP
      (fun r => r.path = "a.md") = 1 :=
  ⟨wf_initDB,
   (upsert_twice_single_record initDB ⟨"a.md", "T1", none, "root", "c1", "u"⟩
      ⟨"a.md", "T2", none, "root", "c2", "u"⟩ 0 1 wf_initDB rfl).2.1⟩

/-- Truthiness of the `section` argument: the Python code guards the
filter with `if section:`, which is false for both `None` and `""`. -/
def sectionTruthy : Option String → Bool
  | none => false
  | some s => s ≠ ""

/-- One output row of the search query: the selected `documents`
columns, the snippet, and `abs(score)` ("BM25 returns negative scores"). -/
def resultOfRow (score : FtsEntry → ℚ) (snip : FtsEntry → String)
    (er : FtsEntry × Row) : SearchResult :=
  { path := er.2.path, title := er.2.title, url := er.2.url,
    snippet := snip er.1, score := abs (score er.1), «section» := er.2.«section» }

/-- The `FROM documents_fts JOIN documents d ON documents_fts.rowid = d.id
WHERE documents_fts MATCH ?` part of the query. -/
def matchedRows (db : DocumentDatabase) (matchQ : FtsEntry → Bool) :
    List (FtsEntry × Row) :=
  (db.fts.filter matchQ).filterMap
    (fun e => (db.docs.find? (fun r => r.id = e.rowid)).map (fun r => (e, r)))

/-- `search`: the FTS5 `MATCH`, `bm25(documents_fts, 5.0, 2.0, 1.0)` and
`snippet(...)` builtins are SQLite-internal and appear as the function
parameters `matchQ`, `score` and `snip`; the rest mirrors the SQL: join
`documents_fts.rowid = d.id`, optional `AND d.section = ?` (guarded by
Python truthiness of the argument), `ORDER BY score` ascending (modelled
as a stable sort), `LIMIT ?`, and `abs(score)` applied to each returned
bm25 value. -/
def DocumentDatabase.search (db : DocumentDatabase) (matchQ : FtsEntry → Bool)
    (score : FtsEntry → ℚ) (snip : FtsEntry → String)
    (sect : Option String) (lim : Nat) : List SearchResult :=
  let filtered := if sectionTruthy sect
    then (matchedRows db matchQ).filter (fun er => er.2.«section» = sect.getD "")
    else matchedRows db matchQ
  let sorted := filtered.insertionSort (fun a b => score a.1 ≤ score b.1)
  (sorted.take lim).map (resultOfRow score snip)

/-- C10: passing `""` as the section argument is the same as passing no
section at all — `if section:` treats the empty string as "no filter". -/
theorem search_empty_section_is_no_filter (db : DocumentDatabase)
    (matchQ : FtsEntry → Bool) (score : FtsEntry → ℚ) (snip : FtsEntry → String)
    (lim : Nat) :
    db.search matchQ score snip (some "") lim = db.search matchQ score snip none lim :=
  rfl

/-- C5: with the raw bm25 scores nonpositive (SQLite's `bm25()` returns
the negated BM25 value, as the source comments: "BM25 returns negative
scores"), the results of `search` are ordered descending by the reported
relevance score, and every reported score is non-negative. -/
theorem search_ordered_and_nonneg (db : DocumentDatabase) (matchQ : FtsEntry → Bool)
    (score : FtsEntry → ℚ) (snip : FtsEntry → String) (sect : Option String) (lim : Nat)
    (hs : ∀ e, score e ≤ 0) :
    ((db.search matchQ score snip sect lim).map SearchResult.score).Pairwise
        (fun a b => b ≤ a) ∧
    ∀ res ∈ db.search matchQ score snip sect lim, 0 ≤ res.score := by
  have hsearch : db.search matchQ score snip sect lim
      = (((if sectionTruthy sect
            then (matchedRows db matchQ).filter (fun er => er.2.«section» = sect.getD "")
            else matchedRows db matchQ).insertionSort
              (fun a b => score a.1 ≤ score b.1)).take lim).map
          (resultOfRow score snip) := rfl
  haveI : IsTotal (FtsEntry × Row) (fun a b => score a.1 ≤ score b.1) :=
    ⟨fun a b => le_total _ _⟩
  haveI : IsTrans (FtsEntry × Row) (fun a b => score a.1 ≤ score b.1) :=
    ⟨fun _ _ _ hab hbc => le_trans hab hbc⟩
  constructor
  · rw [hsearch, List.pairwise_map, List.pairwise_map]
    have hsorted := List.sorted_insertionSort
      (fun a b : FtsEntry × Row => score a.1 ≤ score b.1)
      (if sectionTruthy sect
        then (matchedRows db matchQ).filter (fun er => er.2.«section» = sect.getD "")
        else matchedRows db matchQ)
    have htake := hsorted.sublist (List.take_sublist lim _)
    refine htake.imp_of_mem ?_
    intro a b _ _ hab
    have ha := hs a.1
    have hb := hs b.1
    simp only [resultOfRow]
    rw [abs_of_nonpos ha, abs_of_nonpos hb]
    exact neg_le_neg hab
  · intro res hres
    rw [hsearch] at hres
    rcases List.mem_map.mp hres with ⟨er, -, rfl⟩
    exact abs_nonneg _

/-- A small concrete database: one document in section "sql". -/
def cexDB : DocumentDatabase :=
  initDB.upsert_document ⟨"a.md", "T", none, "sql", "c", "u"⟩ 0

/-- A small concrete database: two documents in sections "sql" and
"streaming". -/
def cexDB2 : DocumentDatabase :=
  (initDB.upsert_document ⟨"a.md", "A", none, "sql", "c", "u"⟩ 0).upsert_document
    ⟨"b.md", "B", none, "streaming", "d", "v"⟩ 1

/-- Counterexample to C4 as stated: with the section argument present
but equal to `""`, `search` applies no section filter at all (Python
`if section:`), so a result whose section is "sql" is returned — not
every result of `search(q, s, n)` has section equal to `s`. -/
theorem search_section_filter_cex :
    ¬ (∀ res ∈ cexDB.search (fun _ => true) (fun _ => (-1 : ℚ)) (fun _ => "s")
        (some "") 10, res.«section» = "") := by
  decide

/-- C4 amended: for every query, every *non-empty* section string `s`
and every limit, each result of the section-filtered search has section
exactly `s` and also appears in the unfiltered search over the same
store, provided the unfiltered search's limit does not truncate it
(`m` at least the FTS table size suffices). -/
theorem search_section_filter (db : DocumentDatabase) (matchQ : FtsEntry → Bool)
    (score : FtsEntry → ℚ) (snip : FtsEntry → String) (s : String) (n m : Nat)
    (hs : s ≠ "") (hm : db.fts.length ≤ m) :
    ∀ res ∈ db.search matchQ score snip (some s) n,
      res.«section» = s ∧ res ∈ db.search matchQ score snip none m := by
  intro res hres
  have htruthy : sectionTruthy (some s) = true := by
    simp [sectionTruthy, hs]
  have hsearchS : db.search matchQ score snip (some s) n
      = ((((matchedRows db matchQ).filter
            (fun er => er.2.«section» = (some s).getD "")).insertionSort
              (fun a b => score a.1 ≤ score b.1)).take n).map
          (resultOfRow score snip) := by
    unfold DocumentDatabase.search
    rw [htruthy]
    simp
  have hsearchN : db.search matchQ score snip none m
      = (((matchedRows db matchQ).insertionSort
            (fun a b => score a.1 ≤ score b.1)).take m).map
          (resultOfRow score snip) := rfl
  rw [hsearchS] at hres
  rcases List.mem_map.mp hres with ⟨er, her, rfl⟩
  have her2 : er ∈ ((matchedRows db matchQ).filter
      (fun er => er.2.«section» = (some s).getD "")).insertionSort
        (fun a b => score a.1 ≤ score b.1) := List.mem_of_mem_take her
  have her3 : er ∈ (matchedRows db matchQ).filter
      (fun er => er.2.«section» = (some s).getD "") :=
    (List.mem_insertionSort _).mp her2
  rcases List.mem_filter.mp her3 with ⟨her4, hersec⟩
  have hsec : er.2.«section» = s := by simpa using hersec
  constructor
  · simpa [resultOfRow] using hsec
  · rw [hsearchN]
    have hlen : ((matchedRows db matchQ).insertionSort
        (fun a b => score a.1 ≤ score b.1)).length ≤ m := by
      rw [List.length_insertionSort]
      calc (matchedRows db matchQ).length
          ≤ (db.fts.filter matchQ).length := List.length_filterMap_le _ _
        _ ≤ db.fts.length := List.length_filter_le _ _
        _ ≤ m := hm
    rw [List.take_of_length_le hlen]
    exact List.mem_map_of_mem _ ((List.mem_insertionSort _).mpr her4)

/-- Witness for C4's amended theorem at a concrete input. -/
theorem search_section_filter_witness :
    ("sql" : String) ≠ "" ∧ cexDB2.fts.length ≤ 10 ∧
    ∀ res ∈ cexDB2.search (fun _ => true) (fun _ => (-1 : ℚ)) (fun _ => "s")
        (some "sql") 5,
      res.«section» = "sql" ∧
      res ∈ cexDB2.search (fun _ => true) (fun _ => (-1 : ℚ)) (fun _ => "s") none 10 :=
  ⟨by decide, by decide,
   search_section_filter cexDB2 (fun _ => true) (fun _ => (-1 : ℚ)) (fun _ => "s")
     "sql" 5 10 (by decide) (by decide)⟩

/-- Witness for C5 at a concrete input. -/
theorem search_ordered_and_nonneg_witness :
    (∀ e : FtsEntry, (fun _ : FtsEntry => (-1 : ℚ)) e ≤ 0) ∧
    ((cexDB2.search (fun _ => true) (fun _ => (-1 : ℚ)) (fun _ => "s") none 10).map
        SearchResult.score).Pairwise (fun a b => b ≤ a) ∧
    ∀ res ∈ cexDB2.search (fun _ => true) (fun _ => (-1 : ℚ)) (fun _ => "s") none 10,
      0 ≤ res.score :=
  ⟨fun _ => by norm_num,
   (search_ordered_and_nonneg cexDB2 (fun _ => true) (fun _ => (-1 : ℚ)) (fun _ => "s")
      none 10 (fun _ => by norm_num)).1,
   (search_ordered_and_nonneg cexDB2 (fun _ => true) (fun _ => (-1 : ℚ)) (fun _ => "s")
      none 10 (fun _ => by norm_num)).2⟩

/-!
## Parser (`parser.py`)

Parsing works on character lists. `frontmatter.load` (an external
library) yields a metadata dictionary, modelled as an association list
from keys to `YamlValue`s, where `YamlValue` records the only
distinction the source makes: `isinstance(x, str)` or not.  Python's
`Path.stem` is taken as an input where needed.
-/

/-- Shorthand: the character list of a string literal. -/
def cs (s : String) : List Char := s.data

/-- Fuel-driven scanner behind `replaceAllList` (structural in the
fuel, so that concrete inputs evaluate inside the kernel). -/
def replaceAllFuel (pat rep : List Char) : Nat → List Char → List Char
  | _, [] => []
  | 0, _ :: _ => []
  | fuel + 1, c :: rest =>
    if pat ≠ [] ∧ pat.isPrefixOf (c :: rest) then
      rep ++ replaceAllFuel pat rep fuel (rest.drop (pat.length - 1))
    else
      c :: replaceAllFuel pat rep fuel rest

/-- Python `str.replace(pat, rep)`: replace every non-overlapping
occurrence of `pat`, scanning left to right, continuing after each
replacement. -/
def replaceAllList (pat rep : List Char) (l : List Char) : List Char :=
  replaceAllFuel pat rep l.length l

/-- The fuel argument is irrelevant once it covers the list length. -/
theorem replaceAllFuel_congr (pat rep : List Char) :
    ∀ n m (l : List Char), l.length ≤ n → l.length ≤ m →
      replaceAllFuel pat rep n l = replaceAllFuel pat rep m l := by
  intro n
  induction n with
  | zero =>
    intro m l hn _
    have : l = [] := List.eq_nil_of_length_eq_zero (Nat.le_zero.mp hn)
    subst this
    cases m <;> rfl
  | succ n ih =>
    intro m l hn hm
    cases l with
    | nil => cases m <;> rfl
    | cons c rest =>
      cases m with
      | zero => exact absurd hm (by simp)
      | succ m' =>
        have hn' : rest.length ≤ n := by
          simp only [List.length_cons] at hn; omega
        have hm' : rest.length ≤ m' := by
          simp only [List.length_cons] at hm; omega
        have hd : (rest.drop (pat.length - 1)).length ≤ rest.length := by
          simp [List.length_drop]
        show replaceAllFuel pat rep (n + 1) (c :: rest)
            = replaceAllFuel pat rep (m' + 1) (c :: rest)
        rw [replaceAllFuel, replaceAllFuel]
        by_cases h : pat ≠ [] ∧ pat.isPrefixOf (c :: rest)
        · rw [if_pos h, if_pos h]
          congr 1
          exact ih m' (rest.drop (pat.length - 1)) (le_trans hd hn') (le_trans hd hm')
        · rw [if_neg h, if_neg h]
          congr 1
          exact ih m' rest hn' hm'

/-- One-step unfolding of `replaceAllList` on a cons cell. -/
theorem replaceAllList_cons (pat rep : List Char) (c : Char) (rest : List Char) :
    replaceAllList pat rep (c :: rest)
      = if pat ≠ [] ∧ pat.isPrefixOf (c :: rest)
        then rep ++ replaceAllList pat rep (rest.drop (pat.length - 1))
        else c :: replaceAllList pat rep rest := by
  show replaceAllFuel pat rep (rest.length + 1) (c :: rest) = _
  rw [replaceAllFuel]
  by_cases h : pat ≠ [] ∧ pat.isPrefixOf (c :: rest)
  · rw [if_pos h, if_pos h]
    congr 1
    exact replaceAllFuel_congr pat rep rest.length (rest.drop (pat.length - 1)).length
      (rest.drop (pat.length - 1)) (by simp [List.length_drop]) le_rfl
  · rw [if_neg h, if_neg h]
    rfl

/-- Whether `pat` occurs as a contiguous substring of `l`. -/
def infixOfB (pat : List Char) : List Char → Bool
  | [] => pat.isEmpty
  | c :: rest => pat.isPrefixOf (c :: rest) || infixOfB pat rest

/-- Python `str.title()` over ASCII: a letter is uppercased when the
previous character is not a letter, lowercased otherwise. -/
def pyTitleGo : Bool → List Char → List Char
  | _, [] => []
  | prevAlpha, c :: rest =>
    if c.isAlpha then
      (if prevAlpha then c.toLower else c.toUpper) :: pyTitleGo true rest
    else
      c :: pyTitleGo false rest

def pyTitle (l : List Char) : List Char := pyTitleGo false l

/-- A frontmatter value: the source only distinguishes strings
(`isinstance(x, str)`) from everything else. -/
inductive YamlValue where
  | str (s : List Char)
  | nonString
deriving DecidableEq

/-- `DocumentMetadata` from `models.py` (character-list fields). -/
structure DocumentMetadata where
  title : List Char
  description : Option (List Char)
  license : Option (List Char)
deriving DecidableEq

/-- Python `dict.get`: look a key up in the metadata dictionary. -/
def lookupMeta (md : List (String × YamlValue)) (k : String) : Option YamlValue :=
  (md.find? (fun p => p.1 = k)).map Prod.snd

/-- The filename-derived fallback title:
`file_path.stem.replace("-", " ").replace("_", " ").title()`. -/
def fallbackTitle (stem : List Char) : List Char :=
  pyTitle (replaceAllList (cs "_") (cs " ") (replaceAllList (cs "-") (cs " ") stem))

/-- `_extract_metadata`: each of title/description/license is used when
it is a string; a non-string or missing title falls back to the
filename-derived title, non-string description/license become `None`. -/
def extract_metadata (md : List (String × YamlValue)) (stem : List Char) :
    DocumentMetadata :=
  { title :=
      match lookupMeta md "title" with
      | some (YamlValue.str t) => t
      | _ => fallbackTitle stem,
    description :=
      match lookupMeta md "description" with
      | some (YamlValue.str s) => some s
      | _ => none,
    license :=
      match lookupMeta md "license" with
      | some (YamlValue.str s) => some s
      | _ => none }

/-- Title resolution as the SPEC words it ("use metadata title if
present and non-empty; otherwise derive from the filename").  Second
definition, for refinement comparison with `extract_metadata`. -/
def spec_title (md : List (String × YamlValue)) (stem : List Char) : List Char :=
  match lookupMeta md "title" with
  | some (YamlValue.str t) => if t = [] then fallbackTitle stem else t
  | _ => fallbackTitle stem

/-- Counterexample to C7 as stated: a frontmatter title that is present
but empty is used as-is by the code (it is a string, so the
`isinstance` check passes), while the claim requires the filename
fallback "Test File". -/
theorem extract_metadata_title_cex :
    (extract_metadata [("title", YamlValue.str [])] (cs "test-file")).title = [] ∧
    spec_title [("title", YamlValue.str [])] (cs "test-file") = cs "Test File" ∧
    (extract_metadata [("title", YamlValue.str [])] (cs "test-file")).title
      ≠ spec_title [("title", YamlValue.str [])] (cs "test-file") := by
  decide

/-- C7 amended: the resulting title is the frontmatter title whenever
that title is present as a string — including the empty string —
and otherwise (missing or non-string) is derived from the filename by
replacing `-`/`_` with spaces and Python title-casing; in particular a
stem "test-file" with no frontmatter title yields "Test File". -/
theorem extract_metadata_title (md : List (String × YamlValue)) (stem : List Char) :
    (∀ t, lookupMeta md "title" = some (YamlValue.str t) →
      (extract_metadata md stem).title = t) ∧
    ((∀ t, lookupMeta md "title" ≠ some (YamlValue.str t)) →
      (extract_metadata md stem).title = fallbackTitle stem) ∧
    (extract_metadata [] (cs "test-file")).title = cs "Test File" := by
  refine ⟨?_, ?_, by decide⟩
  · intro t ht
    simp [extract_metadata, ht]
  · intro h
    cases hl : lookupMeta md "title" with
    | none => simp [extract_metadata, hl]
    | some v =>
      cases v with
      | str t => exact absurd hl (h t)
      | nonString => simp [extract_metadata, hl]

/-- Witness for C7's amended theorem at a concrete input. -/
theorem extract_metadata_title_witness :
    lookupMeta [("title", YamlValue.str (cs "Hello"))] "title"
        = some (YamlValue.str (cs "Hello")) ∧
    (extract_metadata [("title", YamlValue.str (cs "Hello"))] (cs "x")).title
        = cs "Hello" :=
  ⟨by decide,
   (extract_metadata_title [("title", YamlValue.str (cs "Hello"))] (cs "x")).1
     (cs "Hello") (by decide)⟩

/-- `SPARK_DOCS_BASE_URL` from `parser.py`. -/
def SPARK_DOCS_BASE_URL : List Char := cs "https://spark.apache.org/docs/latest"

/-- `if not path_str.endswith(".html"): path_str += ".html"`. -/
def appendHtml (p : List Char) : List Char :=
  if (cs ".html").isSuffixOf p then p else p ++ cs ".html"

/-- `_compute_url`:
`str(relative_path).replace(".md", "").replace(".markdown", "")`
(note: `str.replace` removes EVERY occurrence, not just a final
extension), then append `".html"` if absent, then prefix the base URL. -/
def compute_url (relPath : List Char) : List Char :=
  SPARK_DOCS_BASE_URL ++
    ('/' :: appendHtml (replaceAllList (cs ".markdown") []
      (replaceAllList (cs ".md") [] relPath)))

/-- Extension stripping as the SPEC words it: remove a final
`.md`/`.markdown` extension only. -/
def spec_strip_ext (p : List Char) : List Char :=
  if (cs ".md").isSuffixOf p then p.take (p.length - 3)
  else if (cs ".markdown").isSuffixOf p then p.take (p.length - 9)
  else p

/-- URL derivation as the SPEC words it ("strip `.md`/`.markdown`
extension from the relative path, append `.html` if not already
present, and prefix with a configured documentation base URL").
Second definition, for refinement comparison with `compute_url`. -/
def spec_derive_url (relPath : List Char) : List Char :=
  SPARK_DOCS_BASE_URL ++ ('/' :: appendHtml (spec_strip_ext relPath))

/-- Counterexample to C8 as stated: on a path containing `.md` away
from the extension, `str.replace` also deletes that occurrence, so the
derived URL differs from the spec's extension-stripping derivation. -/
theorem compute_url_cex :
    compute_url (cs "a.md-x/b.md")
        = cs "https://spark.apache.org/docs/latest/a-x/b.html" ∧
    spec_derive_url (cs "a.md-x/b.md")
        = cs "https://spark.apache.org/docs/latest/a.md-x/b.html" ∧
    compute_url (cs "a.md-x/b.md") ≠ spec_derive_url (cs "a.md-x/b.md") := by
  decide

/-- The empty pattern occurs in every list. -/
theorem infixOfB_nil_pat : ∀ l : List Char, infixOfB [] l = true := by
  intro l
  cases l with
  | nil => rfl
  | cons c rest =>
    show (List.isPrefixOf [] (c :: rest) || infixOfB [] rest) = true
    rw [show List.isPrefixOf ([] : List Char) (c :: rest) = true from rfl]
    simp

/-- `str.replace(pat, "")` is the identity when `pat` does not occur. -/
theorem replaceAllList_no_occurrence (pat : List Char) :
    ∀ l, infixOfB pat l = false → replaceAllList pat [] l = l := by
  intro l
  induction l with
  | nil => intro _; rfl
  | cons c rest ih =>
    intro h
    simp only [infixOfB] at h
    rcases Bool.or_eq_false_iff.mp h with ⟨h1, h2⟩
    rw [replaceAllList_cons, if_neg (by simp [h1]), ih h2]

/-- `str.replace(pat, "")` strips a final occurrence of `pat` when that
is the only occurrence (no occurrence inside the first `length - 1`
characters, i.e. inside `dropLast`). -/
theorem replaceAllList_final_occurrence (pat : List Char) :
    ∀ stem, infixOfB pat ((stem ++ pat).dropLast) = false →
      replaceAllList pat [] (stem ++ pat) = stem := by
  intro stem
  induction stem with
  | nil =>
    intro h
    rw [List.nil_append]
    cases hp : pat with
    | nil =>
      rw [hp] at h
      rw [infixOfB_nil_pat] at h
      exact absurd h (by simp)
    | cons p ps =>
      rw [replaceAllList_cons,
        if_pos ⟨by simp, (List.isPrefixOf_iff_prefix).mpr (List.prefix_refl _)⟩]
      have hd : ps.drop ((p :: ps).length - 1) = [] := by
        rw [List.drop_eq_nil_iff]
        simp
      rw [hd]
      rfl
  | cons c stem' ih =>
    intro h
    have hpne : pat ≠ [] := by
      intro hpeq
      rw [hpeq, infixOfB_nil_pat] at h
      exact absurd h (by simp)
    have hne : stem' ++ pat ≠ [] := by
      intro hc
      exact hpne (List.append_eq_nil.mp hc).2
    rw [List.cons_append, List.dropLast_cons_of_ne_nil hne] at h
    simp only [infixOfB] at h
    rcases Bool.or_eq_false_iff.mp h with ⟨h1, h2⟩
    have hnotpre : ¬ (pat.isPrefixOf (c :: (stem' ++ pat)) = true) := by
      intro hcon
      have hpre : pat <+: (c :: (stem' ++ pat)) := (List.isPrefixOf_iff_prefix).mp hcon
      have hlen : pat.length ≤ (c :: (stem' ++ pat)).length - 1 := by
        simp [List.length_append]
      have heq : pat = List.take pat.length (c :: (stem' ++ pat)) :=
        List.prefix_iff_eq_take.mp hpre
      have hpre2 : pat <+: (c :: (stem' ++ pat)).dropLast := by
        rw [List.prefix_iff_eq_take, List.dropLast_eq_take, List.take_take,
          min_eq_left hlen]
        exact heq
      rw [List.dropLast_cons_of_ne_nil hne, ← List.isPrefixOf_iff_prefix, h1] at hpre2
      exact absurd hpre2 (by simp)
    rw [List.cons_append, replaceAllList_cons, if_neg (fun hc => hnotpre hc.2), ih h2]

/-- A suffix check against `A ++ B` only depends on `B` once the
pattern is no longer than `B`. -/
theorem isSuffixOf_append_left (pat A B : List Char) (h : pat.length ≤ B.length) :
    pat.isSuffixOf (A ++ B) = pat.isSuffixOf B := by
  by_cases hb : pat.isSuffixOf B = true
  · rw [hb]
    exact (List.isSuffixOf_iff_suffix).mpr
      (((List.isSuffixOf_iff_suffix).mp hb).trans (List.suffix_append A B))
  · rw [Bool.eq_false_iff.mpr hb, Bool.eq_false_iff]
    intro hcon
    apply hb
    rcases (List.isSuffixOf_iff_suffix).mp hcon with ⟨t, ht⟩
    have hlent : A.length ≤ t.length := by
      have := congrArg List.length ht
      simp only [List.length_append] at this
      omega
    have hB : B = t.drop A.length ++ pat := by
      have h1 : List.drop A.length (t ++ pat) = List.drop A.length t ++ pat :=
        List.drop_append_of_le_length hlent
      have h2 : List.drop A.length (A ++ B) = B := List.drop_left A B
      rw [← h2, ← ht, h1]
    exact (List.isSuffixOf_iff_suffix).mpr ⟨t.drop A.length, hB.symm⟩

/-- C8 amended: on relative paths whose only occurrence of the
`.md` (resp. `.markdown`) substring is the final extension, and which
do not contain the other pattern elsewhere, `_compute_url` agrees with
the spec's extension-stripping derivation; in general the code removes
every occurrence of `.md` and then `.markdown`, not just the extension. -/
theorem compute_url_matches_spec (stem : List Char) :
    (infixOfB (cs ".md") ((stem ++ cs ".md").dropLast) = false →
     infixOfB (cs ".markdown") stem = false →
     compute_url (stem ++ cs ".md") = spec_derive_url (stem ++ cs ".md")) ∧
    (infixOfB (cs ".md") (stem ++ cs ".markdown") = false →
     infixOfB (cs ".markdown") ((stem ++ cs ".markdown").dropLast) = false →
     compute_url (stem ++ cs ".markdown") = spec_derive_url (stem ++ cs ".markdown")) := by
  constructor
  · intro h1 h2
    have hc1 : replaceAllList (cs ".md") [] (stem ++ cs ".md") = stem :=
      replaceAllList_final_occurrence (cs ".md") stem h1
    have hc2 : replaceAllList (cs ".markdown") [] stem = stem :=
      replaceAllList_no_occurrence (cs ".markdown") stem h2
    have hs1 : (cs ".md").isSuffixOf (stem ++ cs ".md") = true :=
      (List.isSuffixOf_iff_suffix).mpr (List.suffix_append _ _)
    have htake : (stem ++ cs ".md").take ((stem ++ cs ".md").length - 3) = stem := by
      have h3 : (cs ".md").length = 3 := by decide
      have hlen : (stem ++ cs ".md").length - 3 = stem.length := by
        simp [List.length_append, h3]
      rw [hlen, List.take_left]
    unfold compute_url spec_derive_url spec_strip_ext
    rw [hc1, hc2, if_pos hs1, htake]
  · intro h1 h2
    have hc1 : replaceAllList (cs ".md") [] (stem ++ cs ".markdown")
        = stem ++ cs ".markdown" :=
      replaceAllList_no_occurrence (cs ".md") _ h1
    have hc2 : replaceAllList (cs ".markdown") [] (stem ++ cs ".markdown") = stem :=
      replaceAllList_final_occurrence (cs ".markdown") stem h2
    have hs1 : (cs ".md").isSuffixOf (stem ++ cs ".markdown") = false := by
      rw [isSuffixOf_append_left (cs ".md") stem (cs ".markdown") (by decide)]
      decide
    have hs2 : (cs ".markdown").isSuffixOf (stem ++ cs ".markdown") = true :=
      (List.isSuffixOf_iff_suffix).mpr (List.suffix_append _ _)
    have htake : (stem ++ cs ".markdown").take ((stem ++ cs ".markdown").length - 9)
        = stem := by
      have h9 : (cs ".markdown").length = 9 := by decide
      have hlen : (stem ++ cs ".markdown").length - 9 = stem.length := by
        simp [List.length_append, h9]
      rw [hlen, List.take_left]
    unfold compute_url spec_derive_url spec_strip_ext
    rw [hc1, hc2, if_neg (by simp [hs1]), if_pos hs2, htake]

/-- Witness for C8's amended theorem at the spec's own example path. -/
theorem compute_url_matches_spec_witness :
    infixOfB (cs ".md") ((cs "sql-ref/syntax" ++ cs ".md").dropLast) = false ∧
    infixOfB (cs ".markdown") (cs "sql-ref/syntax") = false ∧
    compute_url (cs "sql-ref/syntax" ++ cs ".md")
        = spec_derive_url (cs "sql-ref/syntax" ++ cs ".md") :=
  ⟨by decide, by decide,
   (compute_url_matches_spec (cs "sql-ref/syntax")).1 (by decide) (by decide)⟩

/-!
## Content cleaning (`_clean_content`)

The four `re.sub` calls are modelled by dedicated scanners.  A
non-greedy delimited pattern (`\x7b%.*?%\x7d`, `\x7b\x7b.*?\x7d\x7d`,
`<!--.*?-->`) removes, scanning left to right, each opening token
together with everything up to the nearest closing token; without
`re.DOTALL` the dot does not match a newline, so a match cannot span
lines.  `<[^>]+>` removes an angle-bracket pair with at least one
non-`>` character in between (`[^>]` does match newlines).
-/

/-- Scan for the nearest closing token; `dotall = false` aborts at a
newline (the regex dot does not match `\n` without `re.DOTALL`).
Returns the suffix after the closing token. -/
def dropUntilClose (closeT : List Char) (dotall : Bool) : List Char → Option (List Char)
  | [] => none
  | c :: rest =>
    if closeT.isPrefixOf (c :: rest) then some ((c :: rest).drop closeT.length)
    else if c = '\n' ∧ dotall = false then none
    else dropUntilClose closeT dotall rest

/-- Fuel-driven scanner for one non-greedy delimited `re.sub` pattern. -/
def subDelimFuel (openT closeT : List Char) (dotall : Bool) : Nat → List Char → List Char
  | _, [] => []
  | 0, l => l
  | fuel + 1, c :: rest =>
    if openT.isPrefixOf (c :: rest) then
      match dropUntilClose closeT dotall ((c :: rest).drop openT.length) with
      | some after => subDelimFuel openT closeT dotall fuel after
      | none => c :: subDelimFuel openT closeT dotall fuel rest
    else
      c :: subDelimFuel openT closeT dotall fuel rest

/-- `re.sub(open .*? close, "", s)`, optionally with `re.DOTALL`. -/
def subDelim (openT closeT : List Char) (dotall : Bool) (l : List Char) : List Char :=
  subDelimFuel openT closeT dotall l.length l

/-- `re.sub(r"\x7b%.*?%\x7d", "", content)` — Jekyll liquid tags. -/
def removeLiquidTags (l : List Char) : List Char :=
  subDelim (cs "\x7b%") (cs "%\x7d") false l

/-- `re.sub(r"\x7b\x7b.*?\x7d\x7d", "", content)` — liquid variables. -/
def removeLiquidVars (l : List Char) : List Char :=
  subDelim (cs "\x7b\x7b") (cs "\x7d\x7d") false l

/-- `re.sub(r"<!--.*?-->", "", content, flags=re.DOTALL)`. -/
def removeHtmlComments (l : List Char) : List Char :=
  subDelim (cs "<!--") (cs "-->") true l

/-- The suffix after the first `>` in the list. -/
def findGt : List Char → Option (List Char)
  | [] => none
  | c :: rest => if c = '>' then some rest else findGt rest

/-- Fuel-driven scanner for `re.sub(r"<[^>]+>", "", content)`. -/
def removeTagsFuel : Nat → List Char → List Char
  | _, [] => []
  | 0, l => l
  | fuel + 1, c :: rest =>
    if c = '<' then
      match rest with
      | [] => [c]
      | c2 :: _ =>
        if c2 = '>' then c :: removeTagsFuel fuel rest
        else
          match findGt rest with
          | some after => removeTagsFuel fuel after
          | none => c :: removeTagsFuel fuel rest
    else
      c :: removeTagsFuel fuel rest

/-- `re.sub(r"<[^>]+>", "", content)` — remaining HTML tags. -/
def removeHtmlTags (l : List Char) : List Char :=
  removeTagsFuel l.length l

/-- Python `str.strip()`: drop leading and trailing whitespace. -/
def pyStrip (l : List Char) : List Char :=
  ((l.dropWhile Char.isWhitespace).reverse.dropWhile Char.isWhitespace).reverse

/-- `_clean_content`: liquid tags, then liquid variables, then HTML
comments, then HTML tags, then strip — in exactly this order. -/
def clean_content (l : List Char) : List Char :=
  pyStrip (removeHtmlTags (removeHtmlComments (removeLiquidVars (removeLiquidTags l))))

/-- C9: cleaning applies, in order: templating-directive removal
(`\x7b%...%\x7d` then `\x7b\x7b...\x7d\x7d`, non-greedy, not spanning
lines), HTML-comment removal (spanning lines), HTML-tag removal, and a
final trim.  On the spec's example the output contains "Hello" and
"World" and neither "\x7b%" nor "\x7b\x7b"; a comment spanning lines is
removed; an unterminated-on-its-line liquid tag is left alone. -/
theorem clean_content_pipeline :
    (∀ l : List Char, clean_content l
        = pyStrip (removeHtmlTags (removeHtmlComments
            (removeLiquidVars (removeLiquidTags l))))) ∧
    (infixOfB (cs "Hello")
        (clean_content (cs "\x7b% include x.html %\x7d\nHello \x7b\x7b v \x7d\x7d\nWorld"))
          = true ∧
     infixOfB (cs "World")
        (clean_content (cs "\x7b% include x.html %\x7d\nHello \x7b\x7b v \x7d\x7d\nWorld"))
          = true ∧
     infixOfB (cs "\x7b%")
        (clean_content (cs "\x7b% include x.html %\x7d\nHello \x7b\x7b v \x7d\x7d\nWorld"))
          = false ∧
     infixOfB (cs "\x7b\x7b")
        (clean_content (cs "\x7b% include x.html %\x7d\nHello \x7b\x7b v \x7d\x7d\nWorld"))
          = false) ∧
    clean_content (cs "<!-- a\nb -->X") = cs "X" ∧
    clean_content (cs "\x7b% a\nb %\x7d") = cs "\x7b% a\nb %\x7d" := by
  refine ⟨fun l => rfl, by decide, by decide, by decide⟩

/-!
## Indexer (`indexer.py`)

`_index_directory` is modelled over: a flag for `docs_path.exists()`,
and the list of per-file parse outcomes (`self.parser.parse_file`
returns a `Document` or `None`; file enumeration via `Path.rglob` is
Python-library behaviour) in enumeration order.  The `ValueError`
raised for a missing path is an `Except.error`; the state is threaded
explicitly, so "raises before touching the store" shows up as the
database component being returned unchanged.
-/

/-- The loop body of `_index_directory`: on a parsed `Document`, upsert
it and increment the counter; on a parse failure, log and continue. -/
def indexStep (now : Nat) (acc : DocumentDatabase × Nat) (po : Option Document) :
    DocumentDatabase × Nat :=
  match po with
  | some d => (acc.1.upsert_document d now, acc.2 + 1)
  | none => acc

/-- The message of the `ValueError` raised for a missing path. -/
def indexErrMsg : String := "Documentation path does not exist"

/-- `_index_directory`. -/
def index_directory (dirExists : Bool) (parsed : List (Option Document)) (now : Nat)
    (db : DocumentDatabase) : DocumentDatabase × Except String Nat :=
  if dirExists then
    ((parsed.foldl (indexStep now) (db, 0)).1,
      Except.ok (parsed.foldl (indexStep now) (db, 0)).2)
  else
    (db, Except.error indexErrMsg)

/-- The indexing fold upserts exactly the successful parses, in order,
and counts them. -/
theorem indexStep_foldl (now : Nat) :
    ∀ (parsed : List (Option Document)) (db : DocumentDatabase) (k : Nat),
      parsed.foldl (indexStep now) (db, k)
        = ((parsed.filterMap id).foldl (fun a d => a.upsert_document d now) db,
           k + (parsed.filterMap id).length) := by
  intro parsed
  induction parsed with
  | nil => intro db k; simp
  | cons po rest ih =>
    intro db k
    cases po with
    | some d =>
      simp only [List.foldl_cons, List.filterMap_cons, id]
      rw [show indexStep now (db, k) (some d) = (db.upsert_document d now, k + 1) from rfl]
      rw [ih]
      rw [Prod.mk.injEq]
      exact ⟨rfl, by simp; omega⟩
    | none =>
      simp only [List.foldl_cons, List.filterMap_cons, id]
      rw [show indexStep now (db, k) none = (db, k) from rfl]
      exact ih db k

/-- C6: when the directory exists, `_index_directory` returns the
number of files whose parse succeeded and upserts exactly those
documents in enumeration order (parse failures are skipped, not
aborting the batch); when the directory does not exist it fails with
the `ValueError`-style condition, leaving the store untouched. -/
theorem index_directory_spec :
    (∀ (parsed : List (Option Document)) (now : Nat) (db : DocumentDatabase),
      index_directory true parsed now db
        = ((parsed.filterMap id).foldl (fun a d => a.upsert_document d now) db,
           Except.ok (parsed.filterMap id).length)) ∧
    (∀ (parsed : List (Option Document)) (now : Nat) (db : DocumentDatabase),
      index_directory false parsed now db = (db, Except.error indexErrMsg)) := by
  constructor
  · intro parsed now db
    show ((parsed.foldl (indexStep now) (db, 0)).1,
        Except.ok (parsed.foldl (indexStep now) (db, 0)).2) = _
    rw [indexStep_foldl now parsed db 0]
    simp
  · intro parsed now db
    rfl
